import Mathlib

/-!
Verification of the roaring-tags tag index and query engine
(pkg/tagbox: tagbox.go, query code, snapshot code).

The embedding is shallow: a roaring bitmap becomes a `Finset ℕ` of object
identifiers, the Go map from tag name to bitmap becomes an association list
with unique keys, and each public method of `TagSystem` becomes a pure Lean
function on a `TagSystem` state record.  Redis replication and file input
and output are abstracted away: a snapshot file is modelled by its decoded
content, a list of (tag name, bitmap) pairs, since bitmap serialization is
supplied by the external roaring primitive.
-/

/-- A roaring bitmap of unsigned object identifiers, as a finite set. -/
abbrev Bitmap := Finset ℕ

/-- The Go map from tag name to bitmap, as an association list. -/
abbrev TagMap := List (String × Bitmap)

/-- Lookup of a key in the tag map (Go `ts.tags[tag]`, with `exists` flag
modelled by `Option`). -/
def mapLookup : TagMap → String → Option Bitmap
  | [], _ => none
  | p :: rest, k => if p.1 = k then some p.2 else mapLookup rest k

/-- Store a value under a key in the tag map (Go `ts.tags[tag] = bitmap`):
replaces the binding when the key is present, appends it otherwise. -/
def mapInsert : TagMap → String → Bitmap → TagMap
  | [], k, v => [(k, v)]
  | p :: rest, k, v => if p.1 = k then (k, v) :: rest else p :: mapInsert rest k v

/-- Delete a key from the tag map (Go `delete(ts.tags, tag)`). -/
def mapEraseKey : TagMap → String → TagMap
  | [], _ => []
  | p :: rest, k => if p.1 = k then rest else p :: mapEraseKey rest k

/-- In-memory state of tagbox.TagSystem: the tag map and the derived
`allObjects` bitmap.  The lock, Redis handle, configuration and snapshot
ticker carry no index state and are omitted. -/
structure TagSystem where
  tags : TagMap
  allObjects : Bitmap
deriving DecidableEq

/-- The state `New` constructs: empty tag map, empty allObjects. -/
def initSystem : TagSystem := ⟨[], ∅⟩

/-- tagbox.go AddTag: create the tag bitmap if absent, add the object to it
and to allObjects.  The async save trigger has no effect on index state. -/
def AddTag (ts : TagSystem) (objectID : ℕ) (tag : String) : TagSystem :=
  { tags := mapInsert ts.tags tag
      (insert objectID ((mapLookup ts.tags tag).getD ∅)),
    allObjects := insert objectID ts.allObjects }

/-- tagbox.go RemoveTag: no-op when the tag is absent; otherwise remove the
object from the bitmap, deleting the tag entry when the bitmap empties.
allObjects is not shrunk. -/
def RemoveTag (ts : TagSystem) (objectID : ℕ) (tag : String) : TagSystem :=
  match mapLookup ts.tags tag with
  | none => ts
  | some bitmap =>
    let bitmap' := bitmap.erase objectID
    if bitmap'.card = 0 then
      { ts with tags := mapEraseKey ts.tags tag }
    else
      { ts with tags := mapInsert ts.tags tag bitmap' }

/-- tagbox.go BatchAddTags: add one object to each named tag in one critical
section, then add the object to allObjects once. -/
def BatchAddTags (ts : TagSystem) (objectID : ℕ) (tagNames : List String) : TagSystem :=
  { tags := tagNames.foldl
      (fun m t => mapInsert m t (insert objectID ((mapLookup m t).getD ∅))) ts.tags,
    allObjects := insert objectID ts.allObjects }

/-- tagbox.go BatchAddObjectsToTag: create the tag bitmap if absent (even
before looking at the object list), then add every listed object to the tag
bitmap and to allObjects. -/
def BatchAddObjectsToTag (ts : TagSystem) (objectIDs : List ℕ) (tag : String) : TagSystem :=
  { tags := mapInsert ts.tags tag
      (objectIDs.foldl (fun b o => insert o b) ((mapLookup ts.tags tag).getD ∅)),
    allObjects := objectIDs.foldl (fun b o => insert o b) ts.allObjects }

/-- tagbox.go HasTag: false when the tag is absent, membership otherwise. -/
def HasTag (ts : TagSystem) (objectID : ℕ) (tag : String) : Bool :=
  match mapLookup ts.tags tag with
  | none => false
  | some bitmap => decide (objectID ∈ bitmap)

/-- tagbox.go GetAllTags: every tag name in the index. -/
def GetAllTags (ts : TagSystem) : List String :=
  ts.tags.map Prod.fst

/-- tagbox.go GetTagCount: cardinality of the tag bitmap, 0 when absent,
never an error. -/
def GetTagCount (ts : TagSystem) (tag : String) : ℕ :=
  match mapLookup ts.tags tag with
  | none => 0
  | some bitmap => bitmap.card

/-- Loop of query.go queryAndLocked after the first tag was resolved:
intersect with each remaining tag, returning an empty bitmap the moment a
tag is missing. -/
def queryAndGo (ts : TagSystem) : List String → Bitmap → Bitmap
  | [], acc => acc
  | t :: rest, acc =>
    match mapLookup ts.tags t with
    | none => ∅
    | some bitmap => queryAndGo ts rest (acc ∩ bitmap)

/-- query.go queryAndLocked (same algorithm as the exported QueryAnd): empty
list gives an empty bitmap; absent first tag gives an empty bitmap;
otherwise sequential intersection with early empty return on a missing
tag. -/
def queryAndLocked (ts : TagSystem) (tags : List String) : Bitmap :=
  match tags with
  | [] => ∅
  | t :: rest =>
    match mapLookup ts.tags t with
    | none => ∅
    | some bitmap => queryAndGo ts rest bitmap

/-- query.go QueryAnd, identical algorithm to queryAndLocked under its own
lock acquisition. -/
def QueryAnd (ts : TagSystem) (tags : List String) : Bitmap :=
  queryAndLocked ts tags

/-- query.go queryOrLocked: union over the tags that exist, absent tags
contribute nothing. -/
def queryOrLocked (ts : TagSystem) (tags : List String) : Bitmap :=
  tags.foldl
    (fun acc t =>
      match mapLookup ts.tags t with
      | none => acc
      | some bitmap => acc ∪ bitmap) ∅

/-- query.go QueryOr, identical algorithm to queryOrLocked under its own
lock acquisition. -/
def QueryOr (ts : TagSystem) (tags : List String) : Bitmap :=
  queryOrLocked ts tags

/-- query.go queryNotLocked: allObjects minus the tag bitmap, the whole of
allObjects when the tag is absent. -/
def queryNotLocked (ts : TagSystem) (tag : String) : Bitmap :=
  match mapLookup ts.tags tag with
  | none => ts.allObjects
  | some bitmap => ts.allObjects \ bitmap

/-- query.go QueryOp: an operation type string ("AND", "OR", "NOT") and a
tag name list. -/
structure QueryOp where
  type : String
  tags : List String
deriving DecidableEq

/-- The switch statement inside ComplexQuery evaluating one operation to its
partial bitmap, or to an error for a NOT of arity other than one or an
unknown type. -/
def evalOp (ts : TagSystem) (op : QueryOp) : Except String Bitmap :=
  if op.type = "AND" then Except.ok (queryAndLocked ts op.tags)
  else if op.type = "OR" then Except.ok (queryOrLocked ts op.tags)
  else if op.type = "NOT" then
    match op.tags with
    | [t] => Except.ok (queryNotLocked ts t)
    | _ => Except.error "NOT operation requires exactly one tag"
  else Except.error ("unknown operation: " ++ op.type)

/-- Loop of query.go ComplexQuery after the first operation: each further
partial bitmap is intersected into the accumulator, errors abort. -/
def complexQueryGo (ts : TagSystem) : List QueryOp → Bitmap → Except String Bitmap
  | [], acc => Except.ok acc
  | op :: rest, acc =>
    match evalOp ts op with
    | Except.error e => Except.error e
    | Except.ok b => complexQueryGo ts rest (acc ∩ b)

/-- query.go ComplexQuery: empty operation list gives an empty bitmap; the
first valid operation seeds the result and every later partial bitmap is
combined with intersection regardless of its operation type. -/
def ComplexQuery (ts : TagSystem) (ops : List QueryOp) : Except String Bitmap :=
  match ops with
  | [] => Except.ok ∅
  | op :: rest =>
    match evalOp ts op with
    | Except.error e => Except.error e
    | Except.ok b => complexQueryGo ts rest b

/-- tagbox.go SaveSnapshot: the snapshot file content is the serialized tag
map; serialization itself is the external roaring primitive, so the content
is modelled as the tag map. -/
def snapshotData (ts : TagSystem) : TagMap :=
  ts.tags

/-- tagbox.go LoadSnapshot on successfully decoded snapshot content: each
entry is stored into the tag map (replacing any present binding) and its
bitmap is unioned into allObjects. -/
def LoadSnapshot (ts : TagSystem) (data : TagMap) : TagSystem :=
  data.foldl
    (fun s p => { tags := mapInsert s.tags p.1 p.2, allObjects := s.allObjects ∪ p.2 }) ts

/-- Union of every tag bitmap in the index. -/
def tagsUnion (ts : TagSystem) : Bitmap :=
  ts.tags.foldl (fun acc p => acc ∪ p.2) ∅

/-- One public index-mutating call of the tagbox API. -/
inductive Step : TagSystem → TagSystem → Prop
  | add (ts : TagSystem) (o : ℕ) (t : String) : Step ts (AddTag ts o t)
  | remove (ts : TagSystem) (o : ℕ) (t : String) : Step ts (RemoveTag ts o t)
  | batchTags (ts : TagSystem) (o : ℕ) (names : List String) :
      Step ts (BatchAddTags ts o names)
  | batchObjs (ts : TagSystem) (objs : List ℕ) (t : String) :
      Step ts (BatchAddObjectsToTag ts objs t)
  | load (ts : TagSystem) (data : TagMap) : Step ts (LoadSnapshot ts data)

/-- States reachable from a fresh system by public mutating calls. -/
inductive Reachable : TagSystem → Prop
  | init : Reachable initSystem
  | step {ts ts' : TagSystem} : Reachable ts → Step ts ts' → Reachable ts'

/-- An operation the ComplexQuery switch accepts without an argument
error. -/
def validOp (op : QueryOp) : Bool :=
  op.type = "AND" ∨ op.type = "OR" ∨ (op.type = "NOT" ∧ op.tags.length = 1)

/-- Partial bitmap of a valid ComplexQuery operation: its own tag list
combined according to its type. -/
def opBitmap (ts : TagSystem) (op : QueryOp) : Bitmap :=
  if op.type = "AND" then queryAndLocked ts op.tags
  else if op.type = "OR" then queryOrLocked ts op.tags
  else if op.type = "NOT" then queryNotLocked ts op.tags.headI
  else ∅

/-! ### Association-list map lemmas -/

theorem mapLookup_mapInsert_self (m : TagMap) (k : String) (v : Bitmap) :
    mapLookup (mapInsert m k v) k = some v := by
  induction m with
  | nil => simp [mapInsert, mapLookup]
  | cons p rest ih =>
    by_cases h : p.1 = k
    · simp [mapInsert, mapLookup, h]
    · simp [mapInsert, mapLookup, h, ih]

theorem mapLookup_mapInsert_ne (m : TagMap) {k k' : String} (v : Bitmap)
    (h : k' ≠ k) : mapLookup (mapInsert m k v) k' = mapLookup m k' := by
  induction m with
  | nil => simp [mapInsert, mapLookup, h.symm]
  | cons p rest ih =>
    by_cases hp : p.1 = k
    · simp [mapInsert, mapLookup, hp, h.symm]
    · simp [mapInsert, mapLookup, hp, ih]

theorem mapInsert_mapInsert_same (m : TagMap) (k : String) (v w : Bitmap) :
    mapInsert (mapInsert m k v) k w = mapInsert m k w := by
  induction m with
  | nil => simp [mapInsert]
  | cons p rest ih =>
    by_cases h : p.1 = k
    · simp [mapInsert, h]
    · simp [mapInsert, h, ih]

theorem mem_of_mem_mapInsert {m : TagMap} {k : String} {v : Bitmap}
    {p : String × Bitmap} (h : p ∈ mapInsert m k v) : p = (k, v) ∨ p ∈ m := by
  induction m with
  | nil => simp [mapInsert] at h; exact Or.inl h
  | cons q rest ih =>
    by_cases hq : q.1 = k
    · rw [show mapInsert (q :: rest) k v = (k, v) :: rest from by
        simp [mapInsert, hq]] at h
      rcases List.mem_cons.mp h with h1 | h1
      · exact Or.inl h1
      · exact Or.inr (List.mem_cons_of_mem q h1)
    · rw [show mapInsert (q :: rest) k v = q :: mapInsert rest k v from by
        simp [mapInsert, hq]] at h
      rcases List.mem_cons.mp h with h1 | h1
      · exact Or.inr (h1 ▸ List.mem_cons_self q rest)
      · rcases ih h1 with h2 | h2
        · exact Or.inl h2
        · exact Or.inr (List.mem_cons_of_mem q h2)

theorem mem_of_mapLookup_eq_some {m : TagMap} {k : String} {v : Bitmap}
    (h : mapLookup m k = some v) : (k, v) ∈ m := by
  induction m with
  | nil => simp [mapLookup] at h
  | cons p rest ih =>
    by_cases hp : p.1 = k
    · have hv : p.2 = v := by
        have := h
        simp only [mapLookup, if_pos hp] at this
        injection this
      have hpv : (k, v) = p := by
        rw [← hp, ← hv]
      exact List.mem_cons.mpr (Or.inl hpv)
    · simp only [mapLookup, if_neg hp] at h
      exact List.mem_cons_of_mem p (ih h)

theorem mem_of_mem_mapEraseKey {m : TagMap} {k : String}
    {p : String × Bitmap} (h : p ∈ mapEraseKey m k) : p ∈ m := by
  induction m with
  | nil => simp [mapEraseKey] at h
  | cons q rest ih =>
    by_cases hq : q.1 = k
    · rw [show mapEraseKey (q :: rest) k = rest from by simp [mapEraseKey, hq]] at h
      exact List.mem_cons_of_mem q h
    · rw [show mapEraseKey (q :: rest) k = q :: mapEraseKey rest k from by
        simp [mapEraseKey, hq]] at h
      rcases List.mem_cons.mp h with h1 | h1
      · exact h1 ▸ List.mem_cons_self q rest
      · exact List.mem_cons_of_mem q (ih h1)

theorem mem_keys_of_mem_keys_mapInsert {m : TagMap} {k k' : String}
    {v : Bitmap} (h : k' ∈ (mapInsert m k v).map Prod.fst) :
    k' = k ∨ k' ∈ m.map Prod.fst := by
  rcases List.mem_map.mp h with ⟨p, hp, rfl⟩
  rcases mem_of_mem_mapInsert hp with h' | h'
  · exact Or.inl (by rw [h'])
  · exact Or.inr (List.mem_map_of_mem Prod.fst h')

theorem keys_nodup_mapInsert {m : TagMap} (k : String) (v : Bitmap)
    (h : (m.map Prod.fst).Nodup) : ((mapInsert m k v).map Prod.fst).Nodup := by
  induction m with
  | nil => simp [mapInsert]
  | cons p rest ih =>
    rw [List.map_cons, List.nodup_cons] at h
    by_cases hp : p.1 = k
    · rw [show mapInsert (p :: rest) k v = (k, v) :: rest from by
        simp [mapInsert, hp]]
      rw [List.map_cons, List.nodup_cons]
      exact ⟨hp ▸ h.1, h.2⟩
    · rw [show mapInsert (p :: rest) k v = p :: mapInsert rest k v from by
        simp [mapInsert, hp]]
      rw [List.map_cons, List.nodup_cons]
      refine ⟨fun hmem => ?_, ih h.2⟩
      rcases mem_keys_of_mem_keys_mapInsert hmem with h' | h'
      · exact hp h'
      · exact h.1 h'

theorem mapEraseKey_sublist (m : TagMap) (k : String) :
    (mapEraseKey m k).Sublist m := by
  induction m with
  | nil => simp [mapEraseKey]
  | cons p rest ih =>
    by_cases hp : p.1 = k
    · rw [show mapEraseKey (p :: rest) k = rest from by simp [mapEraseKey, hp]]
      exact List.sublist_cons_self p rest
    · rw [show mapEraseKey (p :: rest) k = p :: mapEraseKey rest k from by
        simp [mapEraseKey, hp]]
      exact List.Sublist.cons₂ p ih

theorem keys_nodup_mapEraseKey {m : TagMap} (k : String)
    (h : (m.map Prod.fst).Nodup) : ((mapEraseKey m k).map Prod.fst).Nodup :=
  List.Nodup.sublist ((mapEraseKey_sublist m k).map Prod.fst) h

theorem mapInsert_of_not_mem_keys {m : TagMap} {k : String} (v : Bitmap)
    (h : k ∉ m.map Prod.fst) : mapInsert m k v = m ++ [(k, v)] := by
  induction m with
  | nil => simp [mapInsert]
  | cons p rest ih =>
    simp only [List.map_cons, List.mem_cons, not_or] at h
    have hp : p.1 ≠ k := fun hpk => h.1 hpk.symm
    simp [mapInsert, hp, ih h.2]

/-! ### Query engine lemmas -/

theorem queryAndGo_of_missing (ts : TagSystem) {l : List String}
    (h : ∃ t ∈ l, mapLookup ts.tags t = none) (acc : Bitmap) :
    queryAndGo ts l acc = ∅ := by
  induction l generalizing acc with
  | nil => simp at h
  | cons t rest ih =>
    rcases h with ⟨u, hu, hnone⟩
    rcases List.mem_cons.mp hu with rfl | hu'
    · simp [queryAndGo, hnone]
    · cases hl : mapLookup ts.tags t with
      | none => simp [queryAndGo, hl]
      | some b => simp [queryAndGo, hl, ih ⟨u, hu', hnone⟩]

theorem queryAndGo_of_present (ts : TagSystem) {l : List String}
    (h : ∀ t ∈ l, (mapLookup ts.tags t).isSome = true) (acc : Bitmap) :
    queryAndGo ts l acc =
      l.foldl (fun a t => a ∩ (mapLookup ts.tags t).getD ∅) acc := by
  induction l generalizing acc with
  | nil => simp [queryAndGo]
  | cons t rest ih =>
    have ht : (mapLookup ts.tags t).isSome = true := h t (List.mem_cons_self t rest)
    rcases Option.isSome_iff_exists.mp ht with ⟨b, hb⟩
    have hrest : ∀ u ∈ rest, (mapLookup ts.tags u).isSome = true :=
      fun u hu => h u (List.mem_cons_of_mem t hu)
    simp [queryAndGo, hb, ih hrest]

theorem mem_queryOr_foldl (ts : TagSystem) (l : List String) (s : Bitmap) (x : ℕ) :
    x ∈ l.foldl
        (fun acc t =>
          match mapLookup ts.tags t with
          | none => acc
          | some bitmap => acc ∪ bitmap) s ↔
      x ∈ s ∨ ∃ t ∈ l, ∃ b, mapLookup ts.tags t = some b ∧ x ∈ b := by
  induction l generalizing s with
  | nil => simp
  | cons t rest ih =>
    cases hl : mapLookup ts.tags t with
    | none =>
      simp only [List.foldl_cons, hl, ih]
      constructor
      · rintro (hx | hx)
        · exact Or.inl hx
        · rcases hx with ⟨u, hu, b, hb, hxb⟩
          exact Or.inr ⟨u, List.mem_cons_of_mem t hu, b, hb, hxb⟩
      · rintro (hx | ⟨u, hu, b, hb, hxb⟩)
        · exact Or.inl hx
        · rcases List.mem_cons.mp hu with rfl | hu'
          · rw [hl] at hb; cases hb
          · exact Or.inr ⟨u, hu', b, hb, hxb⟩
    | some bm =>
      simp only [List.foldl_cons, hl, ih, Finset.mem_union]
      constructor
      · rintro ((hx | hx) | hx)
        · exact Or.inl hx
        · exact Or.inr ⟨t, List.mem_cons_self t rest, bm, hl, hx⟩
        · rcases hx with ⟨u, hu, b, hb, hxb⟩
          exact Or.inr ⟨u, List.mem_cons_of_mem t hu, b, hb, hxb⟩
      · rintro (hx | ⟨u, hu, b, hb, hxb⟩)
        · exact Or.inl (Or.inl hx)
        · rcases List.mem_cons.mp hu with rfl | hu'
          · rw [hl] at hb
            obtain rfl : bm = b := by injection hb
            exact Or.inl (Or.inr hxb)
          · exact Or.inr ⟨u, hu', b, hb, hxb⟩

/-- Claim C5: QueryAnd of the empty list is the empty bitmap; a missing tag
anywhere in the list forces the empty bitmap; when every named tag exists the
result is the sequential intersection of their bitmaps starting from the
first. -/
theorem queryAnd_spec (ts : TagSystem) (l : List String) :
    QueryAnd ts [] = ∅ ∧
    ((∃ t ∈ l, mapLookup ts.tags t = none) → QueryAnd ts l = ∅) ∧
    (∀ t0 rest, l = t0 :: rest →
      (∀ t ∈ l, (mapLookup ts.tags t).isSome = true) →
      QueryAnd ts l =
        rest.foldl (fun a t => a ∩ (mapLookup ts.tags t).getD ∅)
          ((mapLookup ts.tags t0).getD ∅)) := by
  refine ⟨rfl, ?_, ?_⟩
  · intro h
    cases l with
    | nil => rfl
    | cons t rest =>
      rcases h with ⟨u, hu, hnone⟩
      rcases List.mem_cons.mp hu with rfl | hu'
      · simp [QueryAnd, queryAndLocked, hnone]
      · cases hl : mapLookup ts.tags t with
        | none => simp [QueryAnd, queryAndLocked, hl]
        | some b =>
          simp [QueryAnd, queryAndLocked, hl,
            queryAndGo_of_missing ts ⟨u, hu', hnone⟩ b]
  · rintro t0 rest rfl h
    have ht : (mapLookup ts.tags t0).isSome = true :=
      h t0 (List.mem_cons_self t0 rest)
    rcases Option.isSome_iff_exists.mp ht with ⟨b, hb⟩
    have hrest : ∀ u ∈ rest, (mapLookup ts.tags u).isSome = true :=
      fun u hu => h u (List.mem_cons_of_mem t0 hu)
    simp [QueryAnd, queryAndLocked, hb, queryAndGo_of_present ts hrest b]

/-- Claim C5 witness: on an index with tag a = {1, 2} and tag b = {2}, a
missing tag ghost forces the empty bitmap even though a alone is non-empty,
and the all-present query intersects sequentially. -/
theorem queryAnd_spec_witness :
    QueryAnd (AddTag (AddTag (AddTag initSystem 1 "a") 2 "a") 2 "b")
        ["a", "ghost"] = ∅ ∧
    QueryAnd (AddTag (AddTag (AddTag initSystem 1 "a") 2 "a") 2 "b")
        ["a", "b"] = ({2} : Finset ℕ) := by
  constructor
  · exact (queryAnd_spec (AddTag (AddTag (AddTag initSystem 1 "a") 2 "a") 2 "b")
      ["a", "ghost"]).2.1 ⟨"ghost", by decide, by decide⟩
  · have := (queryAnd_spec (AddTag (AddTag (AddTag initSystem 1 "a") 2 "a") 2 "b")
      ["a", "b"]).2.2 "a" ["b"] rfl (by decide)
    rw [this]
    decide

/-- Claim C6: QueryOr returns the union of the bitmaps of exactly those
named tags that exist in the index (membership characterization); the empty
list gives the empty bitmap. -/
theorem queryOr_spec (ts : TagSystem) (l : List String) (x : ℕ) :
    (x ∈ QueryOr ts l ↔ ∃ t ∈ l, ∃ b, mapLookup ts.tags t = some b ∧ x ∈ b) ∧
    QueryOr ts [] = ∅ := by
  constructor
  · rw [show QueryOr ts l =
      l.foldl
        (fun acc t =>
          match mapLookup ts.tags t with
          | none => acc
          | some bitmap => acc ∪ bitmap) ∅ from rfl]
    rw [mem_queryOr_foldl]
    simp
  · rfl

/-- Claim C6 witness: with tag vip = {1} and no tag ghost, queryOr of
[vip, ghost] returns exactly the vip bitmap. -/
theorem queryOr_spec_witness :
    QueryOr (AddTag initSystem 1 "vip") ["vip", "ghost"] = ({1} : Finset ℕ) := by
  have h1 := (queryOr_spec (AddTag initSystem 1 "vip") ["vip", "ghost"] 1).1
  decide

theorem evalOp_of_valid (ts : TagSystem) {op : QueryOp}
    (h : validOp op = true) : evalOp ts op = Except.ok (opBitmap ts op) := by
  by_cases hand : op.type = "AND"
  · simp [evalOp, opBitmap, hand]
  · by_cases hor : op.type = "OR"
    · simp [evalOp, opBitmap, hand, hor]
    · by_cases hnot : op.type = "NOT"
      · have hlen : op.tags.length = 1 := by
          simp [validOp, hand, hor, hnot] at h
          exact h
        match htags : op.tags with
        | [t] => simp [evalOp, opBitmap, hand, hor, hnot, htags]
        | [] => rw [htags] at hlen; simp at hlen
        | t :: u :: rest => rw [htags] at hlen; simp at hlen
      · simp [validOp, hand, hor, hnot] at h

theorem evalOp_error_of_invalid (ts : TagSystem) {op : QueryOp}
    (h : validOp op = false) : ∃ e, evalOp ts op = Except.error e := by
  by_cases hand : op.type = "AND"
  · simp [validOp, hand] at h
  · by_cases hor : op.type = "OR"
    · simp [validOp, hor] at h
    · by_cases hnot : op.type = "NOT"
      · have hlen : op.tags.length ≠ 1 := by
          simp [validOp, hand, hor, hnot] at h
          exact h
        match htags : op.tags with
        | [t] => rw [htags] at hlen; simp at hlen
        | [] =>
          exact ⟨"NOT operation requires exactly one tag",
            by simp [evalOp, hand, hor, hnot, htags]⟩
        | t :: u :: rest =>
          exact ⟨"NOT operation requires exactly one tag",
            by simp [evalOp, hand, hor, hnot, htags]⟩
      · exact ⟨"unknown operation: " ++ op.type, by simp [evalOp, hand, hor, hnot]⟩

theorem complexQueryGo_of_valid (ts : TagSystem) {ops : List QueryOp}
    (h : ∀ op ∈ ops, validOp op = true) (acc : Bitmap) :
    complexQueryGo ts ops acc =
      Except.ok (ops.foldl (fun a op => a ∩ opBitmap ts op) acc) := by
  induction ops generalizing acc with
  | nil => simp [complexQueryGo]
  | cons op rest ih =>
    have hop := evalOp_of_valid ts (h op (List.mem_cons_self op rest))
    have hrest : ∀ o ∈ rest, validOp o = true :=
      fun o ho => h o (List.mem_cons_of_mem op ho)
    simp [complexQueryGo, hop, ih hrest]

theorem complexQueryGo_isOk (ts : TagSystem) (ops : List QueryOp) (acc : Bitmap) :
    (complexQueryGo ts ops acc).isOk = true ↔ ∀ op ∈ ops, validOp op = true := by
  induction ops generalizing acc with
  | nil => simp [complexQueryGo, Except.isOk, Except.toBool]
  | cons op rest ih =>
    by_cases hop : validOp op = true
    · rw [complexQueryGo, evalOp_of_valid ts hop]
      simp only [ih]
      constructor
      · intro h o ho
        rcases List.mem_cons.mp ho with rfl | ho'
        · exact hop
        · exact h o ho'
      · intro h o ho
        exact h o (List.mem_cons_of_mem op ho)
    · rcases evalOp_error_of_invalid ts (by simpa using hop) with ⟨e, he⟩
      rw [complexQueryGo, he]
      simp only [Except.isOk, Except.toBool]
      constructor
      · intro h; cases h
      · intro h
        exact absurd (h op (List.mem_cons_self op rest)) hop

/-- Claim C1: for an operation list of at least two operations, each a
valid AND, OR or single-tag NOT, ComplexQuery returns the intersection of
the per-operation partial bitmaps: the partial of the first operation
intersected with the partial of each subsequent operation, regardless of
each operation type, which only selects how the own tag list of one
operation is combined. -/
theorem complexQuery_cross_op_and (ts : TagSystem) (op0 : QueryOp)
    (rest : List QueryOp) (_hlen : rest ≠ [])
    (hvalid : ∀ op ∈ op0 :: rest, validOp op = true) :
    ComplexQuery ts (op0 :: rest) =
      Except.ok (rest.foldl (fun a op => a ∩ opBitmap ts op) (opBitmap ts op0)) := by
  have h0 := evalOp_of_valid ts (hvalid op0 (List.mem_cons_self op0 rest))
  have hrest : ∀ op ∈ rest, validOp op = true :=
    fun op hop => hvalid op (List.mem_cons_of_mem op0 hop)
  rw [ComplexQuery, h0]
  exact complexQueryGo_of_valid ts hrest (opBitmap ts op0)

/-- Claim C1 witness: in the test scenario with object 1 tagged vip and
male and object 2 tagged female and active, the two AND operations combine
by intersection across operations, giving the empty set. -/
theorem complexQuery_cross_op_and_witness :
    ComplexQuery
        (AddTag (AddTag (AddTag (AddTag initSystem 1 "vip") 1 "male") 2 "female")
          2 "active")
        [⟨"AND", ["vip", "male"]⟩, ⟨"AND", ["female", "active"]⟩] =
      Except.ok
        ([(⟨"AND", ["female", "active"]⟩ : QueryOp)].foldl
          (fun a op =>
            a ∩ opBitmap
              (AddTag (AddTag (AddTag (AddTag initSystem 1 "vip") 1 "male")
                2 "female") 2 "active") op)
          (opBitmap
            (AddTag (AddTag (AddTag (AddTag initSystem 1 "vip") 1 "male")
              2 "female") 2 "active") ⟨"AND", ["vip", "male"]⟩)) :=
  complexQuery_cross_op_and
    (AddTag (AddTag (AddTag (AddTag initSystem 1 "vip") 1 "male") 2 "female")
      2 "active")
    ⟨"AND", ["vip", "male"]⟩ [⟨"AND", ["female", "active"]⟩]
    (by decide) (by decide)

/-- Claim C9: ComplexQuery returns an error exactly when the operation list
contains a NOT-typed operation whose tag list has length other than one or
an operation whose type is not AND, OR or NOT; on every other operation
list it returns a bitmap with no error.  The embedding of ComplexQuery is a
pure function of the state, so the index is unchanged by construction. -/
theorem complexQuery_ok_iff_valid (ts : TagSystem) (ops : List QueryOp) :
    (ComplexQuery ts ops).isOk = true ↔ ∀ op ∈ ops, validOp op = true := by
  cases ops with
  | nil => simp [ComplexQuery, Except.isOk, Except.toBool]
  | cons op rest =>
    by_cases hop : validOp op = true
    · rw [ComplexQuery, evalOp_of_valid ts hop, complexQueryGo_isOk]
      constructor
      · intro h o ho
        rcases List.mem_cons.mp ho with rfl | ho'
        · exact hop
        · exact h o ho'
      · intro h o ho
        exact h o (List.mem_cons_of_mem op ho)
    · rcases evalOp_error_of_invalid ts (by simpa using hop) with ⟨e, he⟩
      rw [ComplexQuery, he]
      simp only [Except.isOk, Except.toBool]
      constructor
      · intro h; cases h
      · intro h
        exact absurd (h op (List.mem_cons_self op rest)) hop

/-- Claim C9 witness: a NOT operation with two tags is rejected, a NOT
operation with one tag is accepted. -/
theorem complexQuery_ok_iff_valid_witness :
    (ComplexQuery initSystem [⟨"NOT", ["a", "b"]⟩]).isOk = false ∧
    (ComplexQuery initSystem [⟨"NOT", ["a"]⟩]).isOk = true := by
  constructor
  · rw [Bool.eq_false_iff]
    intro htrue
    have hall := (complexQuery_ok_iff_valid initSystem [⟨"NOT", ["a", "b"]⟩]).mp htrue
    exact absurd (hall ⟨"NOT", ["a", "b"]⟩ (List.mem_cons_self _ _)) (by decide)
  · decide

/-- Claim C10: for every index state, ComplexQuery applied to the empty
operation list returns the empty bitmap with no error. -/
theorem complexQuery_empty_ops (ts : TagSystem) :
    ComplexQuery ts [] = Except.ok (∅ : Bitmap) := rfl

/-- Claim C8: calling AddTag twice with the same object and tag leaves the
whole index state identical to calling it once, and adding an
already-present pair leaves the tag cardinality unchanged. -/
theorem addTag_idempotent (ts : TagSystem) (o : ℕ) (t : String) :
    AddTag (AddTag ts o t) o t = AddTag ts o t ∧
    (HasTag ts o t = true →
      GetTagCount (AddTag ts o t) t = GetTagCount ts t) := by
  constructor
  · simp only [AddTag, mapLookup_mapInsert_self, Option.getD_some,
      Finset.insert_idem, mapInsert_mapInsert_same]
  · intro h
    cases hl : mapLookup ts.tags t with
    | none => simp [HasTag, hl] at h
    | some b =>
      have hob : o ∈ b := by simpa [HasTag, hl] using h
      simp [GetTagCount, AddTag, hl, mapLookup_mapInsert_self,
        Finset.insert_eq_self.mpr hob]

/-- Claim C8 witness: on the one-element index with tag a = {1}, re-adding
the present pair (1, a) changes nothing. -/
theorem addTag_idempotent_witness :
    AddTag (AddTag initSystem 1 "a") 1 "a" = AddTag initSystem 1 "a" ∧
    GetTagCount (AddTag (AddTag initSystem 1 "a") 1 "a") "a" =
      GetTagCount (AddTag initSystem 1 "a") "a" :=
  ⟨(addTag_idempotent initSystem 1 "a").1,
    (addTag_idempotent (AddTag initSystem 1 "a") 1 "a").2 (by decide)⟩

/-! ### Reachable-state invariants -/

/-- Every tag bitmap of the index is contained in allObjects. -/
def SubsetInv (ts : TagSystem) : Prop :=
  ∀ p ∈ ts.tags, p.2 ⊆ ts.allObjects

theorem getD_lookup_subset {ts : TagSystem} (h : SubsetInv ts) (t : String) :
    (mapLookup ts.tags t).getD ∅ ⊆ ts.allObjects := by
  cases hl : mapLookup ts.tags t with
  | none => simp
  | some v => exact h (t, v) (mem_of_mapLookup_eq_some hl)

theorem mem_foldl_insert (l : List ℕ) (s : Bitmap) (x : ℕ) :
    x ∈ l.foldl (fun b o => insert o b) s ↔ x ∈ s ∨ x ∈ l := by
  induction l generalizing s with
  | nil => simp
  | cons o rest ih =>
    simp only [List.foldl_cons, ih, Finset.mem_insert, List.mem_cons]
    tauto

theorem subsetInv_addTag {ts : TagSystem} (h : SubsetInv ts) (o : ℕ)
    (t : String) : SubsetInv (AddTag ts o t) := by
  intro p hp
  simp only [AddTag] at hp ⊢
  rcases mem_of_mem_mapInsert hp with rfl | hp'
  · exact Finset.insert_subset_insert o (getD_lookup_subset h t)
  · exact (h p hp').trans (Finset.subset_insert o ts.allObjects)

theorem subsetInv_removeTag {ts : TagSystem} (h : SubsetInv ts) (o : ℕ)
    (t : String) : SubsetInv (RemoveTag ts o t) := by
  intro p hp
  cases hl : mapLookup ts.tags t with
  | none =>
    rw [show RemoveTag ts o t = ts from by simp [RemoveTag, hl]] at hp ⊢
    exact h p hp
  | some b =>
    by_cases hc : (b.erase o).card = 0
    · rw [show RemoveTag ts o t = { ts with tags := mapEraseKey ts.tags t }
        from by simp [RemoveTag, hl, hc]] at hp ⊢
      exact h p (mem_of_mem_mapEraseKey hp)
    · rw [show RemoveTag ts o t =
          { ts with tags := mapInsert ts.tags t (b.erase o) }
        from by simp [RemoveTag, hl, hc]] at hp ⊢
      rcases mem_of_mem_mapInsert hp with rfl | hp'
      · exact (Finset.erase_subset o b).trans
          (h (t, b) (mem_of_mapLookup_eq_some hl))
      · exact h p hp'

theorem subsetInv_foldl_addOne (o : ℕ) (names : List String) (S : Bitmap)
    (ho : o ∈ S) :
    ∀ m : TagMap, (∀ p ∈ m, p.2 ⊆ S) →
      ∀ p ∈ names.foldl
          (fun m' t => mapInsert m' t (insert o ((mapLookup m' t).getD ∅))) m,
        p.2 ⊆ S := by
  induction names with
  | nil => intro m h; simpa using h
  | cons t rest ih =>
    intro m h
    simp only [List.foldl_cons]
    apply ih
    intro p hp
    rcases mem_of_mem_mapInsert hp with rfl | hp'
    · refine Finset.insert_subset ho ?_
      cases hl : mapLookup m t with
      | none => simp
      | some v => exact h (t, v) (mem_of_mapLookup_eq_some hl)
    · exact h p hp'

theorem subsetInv_batchAddTags {ts : TagSystem} (h : SubsetInv ts) (o : ℕ)
    (names : List String) : SubsetInv (BatchAddTags ts o names) :=
  fun p hp =>
    subsetInv_foldl_addOne o names (insert o ts.allObjects)
      (Finset.mem_insert_self o ts.allObjects) ts.tags
      (fun q hq => (h q hq).trans (Finset.subset_insert o ts.allObjects)) p hp

theorem subsetInv_batchAddObjectsToTag {ts : TagSystem} (h : SubsetInv ts)
    (objs : List ℕ) (t : String) : SubsetInv (BatchAddObjectsToTag ts objs t) := by
  intro p hp
  simp only [BatchAddObjectsToTag] at hp ⊢
  rcases mem_of_mem_mapInsert hp with rfl | hp'
  · intro x hx
    rw [mem_foldl_insert] at hx ⊢
    rcases hx with hx | hx
    · exact Or.inl (getD_lookup_subset h t hx)
    · exact Or.inr hx
  · intro x hx
    rw [mem_foldl_insert]
    exact Or.inl (h p hp' hx)

theorem subsetInv_loadSnapshot {ts : TagSystem} (h : SubsetInv ts)
    (data : TagMap) : SubsetInv (LoadSnapshot ts data) := by
  induction data generalizing ts with
  | nil => simpa [LoadSnapshot] using h
  | cons q rest ih =>
    show SubsetInv (LoadSnapshot
      (TagSystem.mk (mapInsert ts.tags q.1 q.2) (ts.allObjects ∪ q.2)) rest)
    apply ih
    intro p hp
    rcases mem_of_mem_mapInsert hp with rfl | hp'
    · exact Finset.subset_union_right
    · exact (h p hp').trans Finset.subset_union_left

theorem reachable_subsetInv {ts : TagSystem} (h : Reachable ts) :
    SubsetInv ts := by
  induction h with
  | init => intro p hp; simp [initSystem] at hp
  | step _ hstep ih =>
    cases hstep with
    | add o t => exact subsetInv_addTag ih o t
    | remove o t => exact subsetInv_removeTag ih o t
    | batchTags o names => exact subsetInv_batchAddTags ih o names
    | batchObjs objs t => exact subsetInv_batchAddObjectsToTag ih objs t
    | load data => exact subsetInv_loadSnapshot ih data

theorem foldl_union_subset (l : TagMap) (S : Bitmap)
    (h : ∀ p ∈ l, p.2 ⊆ S) :
    ∀ s : Bitmap, s ⊆ S → l.foldl (fun acc p => acc ∪ p.2) s ⊆ S := by
  induction l with
  | nil => intro s hs; simpa using hs
  | cons q rest ih =>
    intro s hs
    simp only [List.foldl_cons]
    exact ih (fun p hp => h p (List.mem_cons_of_mem q hp)) (s ∪ q.2)
      (Finset.union_subset hs (h q (List.mem_cons_self q rest)))

/-- Claim C2 counterexample: adding object 1 to tag a and then removing it
again is a reachable state where allObjects = {1} but the union of every
tag bitmap is empty, so the claimed equality fails right after RemoveTag
removed the last occurrence of the object. -/
theorem allObjects_union_counterexample :
    Reachable (RemoveTag (AddTag initSystem 1 "a") 1 "a") ∧
    (RemoveTag (AddTag initSystem 1 "a") 1 "a").allObjects ≠
      tagsUnion (RemoveTag (AddTag initSystem 1 "a") 1 "a") :=
  ⟨Reachable.step (Reachable.step Reachable.init (Step.add initSystem 1 "a"))
      (Step.remove (AddTag initSystem 1 "a") 1 "a"),
    by decide⟩

/-- Claim C2 (amended): at every state reachable by public operations,
AllObjects contains the union of every tag bitmap; the exact equality fails
because removals never shrink AllObjects. -/
theorem allObjects_superset_invariant {ts : TagSystem} (h : Reachable ts) :
    tagsUnion ts ⊆ ts.allObjects :=
  foldl_union_subset ts.tags ts.allObjects (reachable_subsetInv h) ∅
    (Finset.empty_subset ts.allObjects)

/-- Claim C2 witness: the superset invariant at the concrete reachable
state with tag a = {1}. -/
theorem allObjects_superset_invariant_witness :
    tagsUnion (AddTag initSystem 1 "a") ⊆ (AddTag initSystem 1 "a").allObjects :=
  allObjects_superset_invariant
    (Reachable.step Reachable.init (Step.add initSystem 1 "a"))

/-- Claim C4: evaluation of the code at the failing input.
BatchAddObjectsToTag with an empty object list on a fresh index creates the
named tag with an empty bitmap at a reachable state: GetAllTags then lists
the tag, its stored bitmap is empty, and its cardinality is 0 — violating
the deletion-on-empty invariant the claim states. -/
theorem batchAdd_empty_object_list_bug :
    Reachable (BatchAddObjectsToTag initSystem [] "t") ∧
    GetAllTags (BatchAddObjectsToTag initSystem [] "t") = ["t"] ∧
    mapLookup (BatchAddObjectsToTag initSystem [] "t").tags "t" =
      some (∅ : Bitmap) ∧
    GetTagCount (BatchAddObjectsToTag initSystem [] "t") "t" = 0 :=
  ⟨Reachable.step Reachable.init (Step.batchObjs initSystem [] "t"),
    by decide, by decide, by decide⟩

/-! ### Snapshot round trip and LoadSnapshot characterization -/

theorem keysNodup_foldl_addOne (o : ℕ) (names : List String) :
    ∀ m : TagMap, (m.map Prod.fst).Nodup →
      ((names.foldl
          (fun m' t => mapInsert m' t (insert o ((mapLookup m' t).getD ∅))) m).map
        Prod.fst).Nodup := by
  induction names with
  | nil => intro m h; simpa using h
  | cons t rest ih =>
    intro m h
    simp only [List.foldl_cons]
    exact ih _ (keys_nodup_mapInsert t _ h)

theorem keysNodup_loadSnapshot (data : TagMap) :
    ∀ ts : TagSystem, (ts.tags.map Prod.fst).Nodup →
      ((LoadSnapshot ts data).tags.map Prod.fst).Nodup := by
  induction data with
  | nil => intro ts h; simpa [LoadSnapshot] using h
  | cons q rest ih =>
    intro ts h
    exact ih (TagSystem.mk (mapInsert ts.tags q.1 q.2) (ts.allObjects ∪ q.2))
      (keys_nodup_mapInsert q.1 q.2 h)

theorem reachable_keysNodup {ts : TagSystem} (h : Reachable ts) :
    (ts.tags.map Prod.fst).Nodup := by
  induction h with
  | init => simp [initSystem]
  | step _ hstep ih =>
    cases hstep with
    | add o t => exact keys_nodup_mapInsert t _ ih
    | remove o t =>
      rename_i ts' _
      cases hl : mapLookup ts'.tags t with
      | none => simpa [RemoveTag, hl] using ih
      | some b =>
        by_cases hc : (b.erase o).card = 0
        · simpa [RemoveTag, hl, hc] using keys_nodup_mapEraseKey t ih
        · simpa [RemoveTag, hl, hc] using keys_nodup_mapInsert t (b.erase o) ih
    | batchTags o names =>
      rename_i ts' _
      exact keysNodup_foldl_addOne o names ts'.tags ih
    | batchObjs objs t => exact keys_nodup_mapInsert t _ ih
    | load data =>
      rename_i ts' _
      exact keysNodup_loadSnapshot data ts' ih

theorem loadSnapshot_tags_of_fresh_keys (data : TagMap) :
    ∀ ts : TagSystem, (data.map Prod.fst).Nodup →
      (∀ k ∈ data.map Prod.fst, k ∉ ts.tags.map Prod.fst) →
      (LoadSnapshot ts data).tags = ts.tags ++ data := by
  induction data with
  | nil => intro ts _ _; simp [LoadSnapshot]
  | cons q rest ih =>
    intro ts hnd hdis
    rw [List.map_cons, List.nodup_cons] at hnd
    have hq : q.1 ∉ ts.tags.map Prod.fst :=
      hdis q.1 (by simp)
    have hdis' : ∀ k ∈ rest.map Prod.fst,
        k ∉ (mapInsert ts.tags q.1 q.2).map Prod.fst := by
      intro k hk hmem
      rcases mem_keys_of_mem_keys_mapInsert hmem with rfl | h'
      · exact hnd.1 hk
      · exact hdis k (by simp [hk]) h'
    have hrec := ih (TagSystem.mk (mapInsert ts.tags q.1 q.2)
      (ts.allObjects ∪ q.2)) hnd.2 hdis'
    rw [show (LoadSnapshot ts (q :: rest)).tags =
        (LoadSnapshot (TagSystem.mk (mapInsert ts.tags q.1 q.2)
          (ts.allObjects ∪ q.2)) rest).tags from rfl]
    rw [hrec]
    rw [show (TagSystem.mk (mapInsert ts.tags q.1 q.2)
        (ts.allObjects ∪ q.2)).tags = mapInsert ts.tags q.1 q.2 from rfl]
    rw [mapInsert_of_not_mem_keys q.2 hq]
    simp

/-- Claim C7: for every index state reachable by any sequence of public
mutations, saving a snapshot and loading it into a fresh empty index
reproduces the HasTag answer of the original index for every object and
tag pair. -/
theorem snapshot_roundtrip_hasTag {ts : TagSystem} (h : Reachable ts) :
    ∀ (objectID : ℕ) (tag : String),
      HasTag (LoadSnapshot initSystem (snapshotData ts)) objectID tag =
        HasTag ts objectID tag := by
  intro o t
  have hkeys : ((snapshotData ts).map Prod.fst).Nodup := reachable_keysNodup h
  have htags : (LoadSnapshot initSystem (snapshotData ts)).tags = ts.tags := by
    have hload := loadSnapshot_tags_of_fresh_keys (snapshotData ts) initSystem
      hkeys (by intro k _ hk; simp [initSystem] at hk)
    simpa [snapshotData, initSystem] using hload
  unfold HasTag
  rw [htags]

/-- Claim C7 witness: round trip at the concrete reachable index with tag
a = {1}, for the pair (1, a). -/
theorem snapshot_roundtrip_hasTag_witness :
    HasTag (LoadSnapshot initSystem (snapshotData (AddTag initSystem 1 "a")))
        1 "a" =
      HasTag (AddTag initSystem 1 "a") 1 "a" :=
  snapshot_roundtrip_hasTag
    (Reachable.step Reachable.init (Step.add initSystem 1 "a")) 1 "a"

theorem loadSnapshot_allObjects (data : TagMap) :
    ∀ ts : TagSystem, (LoadSnapshot ts data).allObjects =
      data.foldl (fun acc p => acc ∪ p.2) ts.allObjects := by
  induction data with
  | nil => intro ts; rfl
  | cons q rest ih =>
    intro ts
    exact ih (TagSystem.mk (mapInsert ts.tags q.1 q.2) (ts.allObjects ∪ q.2))

theorem loadSnapshot_lookup_of_not_mem (data : TagMap) :
    ∀ (ts : TagSystem) (t : String), t ∉ data.map Prod.fst →
      mapLookup (LoadSnapshot ts data).tags t = mapLookup ts.tags t := by
  induction data with
  | nil => intro ts t _; rfl
  | cons q rest ih =>
    intro ts t ht
    rw [List.map_cons] at ht
    have h1 : t ≠ q.1 := fun he => ht (he ▸ List.mem_cons_self q.1 _)
    have h2 : t ∉ rest.map Prod.fst := fun hm => ht (List.mem_cons_of_mem q.1 hm)
    calc mapLookup (LoadSnapshot ts (q :: rest)).tags t
        = mapLookup (mapInsert ts.tags q.1 q.2) t :=
          ih (TagSystem.mk (mapInsert ts.tags q.1 q.2) (ts.allObjects ∪ q.2)) t h2
      _ = mapLookup ts.tags t := mapLookup_mapInsert_ne ts.tags q.2 h1

theorem loadSnapshot_lookup_of_mem (data : TagMap) :
    ∀ ts : TagSystem, (data.map Prod.fst).Nodup →
      ∀ p ∈ data, mapLookup (LoadSnapshot ts data).tags p.1 = some p.2 := by
  induction data with
  | nil => intro ts _ p hp; simp at hp
  | cons q rest ih =>
    intro ts hnd p hp
    rw [List.map_cons, List.nodup_cons] at hnd
    rcases List.mem_cons.mp hp with rfl | hp'
    · calc mapLookup (LoadSnapshot ts (p :: rest)).tags p.1
          = mapLookup (mapInsert ts.tags p.1 p.2) p.1 :=
            loadSnapshot_lookup_of_not_mem rest
              (TagSystem.mk (mapInsert ts.tags p.1 p.2) (ts.allObjects ∪ p.2))
              p.1 hnd.1
        _ = some p.2 := mapLookup_mapInsert_self ts.tags p.1 p.2
    · exact ih (TagSystem.mk (mapInsert ts.tags q.1 q.2) (ts.allObjects ∪ q.2))
        hnd.2 p hp'

/-- Claim C3 counterexample: with tag a = {1} already in the index and a
snapshot mapping a to {2}, LoadSnapshot leaves a = {2}: the stored bitmap
is the snapshot bitmap, not the union {1, 2} the claim requires. -/
theorem loadSnapshot_no_merge_counterexample :
    mapLookup (LoadSnapshot (AddTag initSystem 1 "a")
        [("a", ({2} : Finset ℕ))]).tags "a" = some ({2} : Finset ℕ) ∧
    mapLookup (LoadSnapshot (AddTag initSystem 1 "a")
        [("a", ({2} : Finset ℕ))]).tags "a" ≠
      some (({1} : Finset ℕ) ∪ ({2} : Finset ℕ)) :=
  ⟨by decide, by decide⟩

/-- Claim C3 (amended): for every pre-existing index state and snapshot
content with distinct tag names, LoadSnapshot stores for each named tag
exactly the snapshot bitmap, replacing any previous binding rather than
unioning with it; tags not named in the snapshot are unchanged; and every
loaded bitmap is unioned into allObjects. -/
theorem loadSnapshot_replace_spec (ts : TagSystem) (data : TagMap)
    (hnd : (data.map Prod.fst).Nodup) :
    (∀ p ∈ data, mapLookup (LoadSnapshot ts data).tags p.1 = some p.2) ∧
    (∀ t, t ∉ data.map Prod.fst →
      mapLookup (LoadSnapshot ts data).tags t = mapLookup ts.tags t) ∧
    (LoadSnapshot ts data).allObjects =
      data.foldl (fun acc p => acc ∪ p.2) ts.allObjects :=
  ⟨loadSnapshot_lookup_of_mem data ts hnd,
    fun t ht => loadSnapshot_lookup_of_not_mem data ts t ht,
    loadSnapshot_allObjects data ts⟩

/-- Claim C3 witness: loading the snapshot [(b, {2})] into the index with
tag a = {1} stores b = {2}. -/
theorem loadSnapshot_replace_spec_witness :
    mapLookup (LoadSnapshot (AddTag initSystem 1 "a")
        [("b", ({2} : Finset ℕ))]).tags "b" = some ({2} : Finset ℕ) :=
  (loadSnapshot_replace_spec (AddTag initSystem 1 "a")
      [("b", ({2} : Finset ℕ))] (by decide)).1
    ("b", ({2} : Finset ℕ)) (by decide)
